import Mathlib

/-!
Verification development for the influence-maximization engine in `parallel.py`.

The program is embedded shallowly:

* a CSR graph is the Python triple `graph = (data, rows, cols)` with
  `data = graph[0]` (edge probabilities), `rows = graph[1]` (row offsets) and
  `cols = graph[2]` (neighbor ids);
* Python's global `random` stream is an explicit function `rand : ℕ → ℚ`
  consumed in draw order, and the RR sets drawn by `kpt_estimation` are an
  explicit oracle `sample : ℕ → ℕ → Finset ℕ` (round index, trial index);
* float arithmetic is idealized as exact arithmetic (`ℚ` for the computable
  paths, `ℝ` where `math.log` appears);
* the unbounded `while stack:` loop of `random_reverse_reachable_set` is
  embedded with an explicit fuel parameter, `none` meaning fuel exhaustion,
  and termination is proved by exhibiting a sufficient fuel value;
* an unhandled Python `ZeroDivisionError` is embedded as `none`.
-/

namespace Parallel

/-- The CSR graph triple `(edge probabilities, row offsets, neighbor ids)`,
mirroring `graph[0]`, `graph[1]`, `graph[2]` in `parallel.py`. -/
structure Graph where
  data : List ℚ
  rows : List ℕ
  cols : List ℕ

/-- `len(graph[1]) - 1`, the number of nodes `n`. -/
def nodeCount (g : Graph) : ℕ := g.rows.length - 1

/-- `len(graph[0])`, the number of edges `m`. -/
def edgeCount (g : Graph) : ℕ := g.data.length

/-- Executable check that a list of offsets is non-decreasing. -/
def chainLe : List ℕ → Bool
  | [] => true
  | [_] => true
  | a :: b :: t => a ≤ b && chainLe (b :: t)

theorem chainLe_iff : ∀ l : List ℕ, chainLe l = true ↔ List.Chain' (· ≤ ·) l
  | [] => by simp [chainLe]
  | [a] => by simp [chainLe]
  | a :: b :: t => by
    rw [chainLe, List.chain'_cons, Bool.and_eq_true, decide_eq_true_eq,
      chainLe_iff (b :: t)]

/-- A well-formed CSR structure: `rows` is a nonempty, non-decreasing offset
array running from `0` to `m`, `cols` lists `m` in-range neighbor ids, and the
edge probabilities lie in `[0, 1]`. -/
def ValidCSR (g : Graph) : Prop :=
  1 ≤ g.rows.length ∧
  chainLe g.rows = true ∧
  g.rows.getD 0 0 = 0 ∧
  g.rows.getD (nodeCount g) 0 = edgeCount g ∧
  g.cols.length = edgeCount g ∧
  (∀ c ∈ g.cols, c < nodeCount g) ∧
  (∀ p ∈ g.data, 0 ≤ p ∧ p ≤ 1)

instance (g : Graph) : Decidable (ValidCSR g) :=
  inferInstanceAs (Decidable (1 ≤ g.rows.length ∧
    chainLe g.rows = true ∧
    g.rows.getD 0 0 = 0 ∧
    g.rows.getD (nodeCount g) 0 = edgeCount g ∧
    g.cols.length = edgeCount g ∧
    (∀ c ∈ g.cols, c < nodeCount g) ∧
    (∀ p ∈ g.data, 0 ≤ p ∧ p ≤ 1)))

/-- `width(graph, nodes)`: the sum over the node set of
`graph[1][node + 1] - graph[1][node]` (Python integer subtraction, hence `ℤ`).
Out-of-range indexing is totalized with default `0`; on the inputs the program
feeds it (valid CSR, nodes in range) this agrees with the Python code. -/
def width (g : Graph) (nodes : Finset ℕ) : ℤ :=
  ∑ v ∈ nodes, ((g.rows.getD (v + 1) 0 : ℤ) - (g.rows.getD v 0 : ℤ))

/-- The running state of `find_most_common_node`: the `counts` and
`exists_in_set` defaultdicts plus the running `maximum` and
`most_common_node`. -/
structure FmcState where
  counts : ℕ → ℕ
  existsIn : ℕ → List ℕ
  maximum : ℕ
  mostCommon : ℕ

/-- The initial state of `find_most_common_node`: empty defaultdicts,
`maximum = 0`, `most_common_node = 0`. -/
def fmcInit : FmcState :=
  { counts := fun _ => 0, existsIn := fun _ => [], maximum := 0, mostCommon := 0 }

/-- One iteration of the inner loop of `find_most_common_node`: record that
`node` occurs in sample `setId`, bump its count, and update the running
maximum when the bumped count strictly exceeds it. -/
def fmcStep (setId : ℕ) (s : FmcState) (node : ℕ) : FmcState :=
  if s.maximum < s.counts node + 1 then
    { counts := fun v => if v = node then s.counts node + 1 else s.counts v,
      existsIn := fun v => if v = node then s.existsIn v ++ [setId] else s.existsIn v,
      maximum := s.counts node + 1,
      mostCommon := node }
  else
    { counts := fun v => if v = node then s.counts node + 1 else s.counts v,
      existsIn := fun v => if v = node then s.existsIn v ++ [setId] else s.existsIn v,
      maximum := s.maximum,
      mostCommon := s.mostCommon }

/-- Process one `(set_id, rr_set)` item of the outer loop of
`find_most_common_node`. The `rr_set` is kept as a list to retain Python's
iteration order, which the tie-breaking behavior depends on. -/
def fmcProcess (s : FmcState) (p : ℕ × List ℕ) : FmcState :=
  p.2.foldl (fmcStep p.1) s

/-- `find_most_common_node(rr_sets)`: returns the running most-common node and
the list of sample ids containing it. `rr_sets` is the dict as a list of
`(set_id, rr_set)` items in iteration order. -/
def find_most_common_node (rr_sets : List (ℕ × List ℕ)) : ℕ × List ℕ :=
  ((rr_sets.foldl fmcProcess fmcInit).mostCommon,
   (rr_sets.foldl fmcProcess fmcInit).existsIn
     (rr_sets.foldl fmcProcess fmcInit).mostCommon)

/-- The final value of `counts[v]` computed by `find_most_common_node`. -/
def fmcCounts (rr_sets : List (ℕ × List ℕ)) (v : ℕ) : ℕ :=
  (rr_sets.foldl fmcProcess fmcInit).counts v

/-- The number of samples of the collection whose RR set contains `v`. -/
def countSets (rr_sets : List (ℕ × List ℕ)) (v : ℕ) : ℕ :=
  (rr_sets.filter (fun p => v ∈ p.2)).length

/-- The greedy-selection loop of `node_selection` (lines 113-122): `k`
iterations, each appending `find_most_common_node`'s pick and deleting the
sample ids it covers (`del R[set_id]`). -/
def node_selection_greedy (R : List (ℕ × List ℕ)) : ℕ → List ℕ
  | 0 => []
  | k + 1 =>
    (find_most_common_node R).1 ::
      node_selection_greedy
        (R.filter (fun p => p.1 ∉ (find_most_common_node R).2)) k

/-- `MEM_BYTES / (1024.0 ** 3)`, the machine memory in gigabytes. -/
def MEM_GIGABYTES (memBytes : ℚ) : ℚ := memBytes / 1024 ^ 3

/-- `num_rows_per_batch = math.ceil(MEM_GIGABYTES / 2 / num_nodes * 1e-9)`
(line 101 of `parallel.py`). -/
def num_rows_per_batch (memBytes : ℚ) (numNodes : ℕ) : ℤ :=
  ⌈MEM_GIGABYTES memBytes / 2 / (numNodes : ℚ) * (1 / 10 ^ 9)⌉

/-- Modelled from the spec: `rows_per_batch = floor(memory_budget_bytes /
bytes_per_row)`, where the memory budget is half of total memory and a row
costs one byte per node (`np.bool_`). This is the batch-size policy the spec
states; the code's `num_rows_per_batch` is compared against it. -/
def rows_per_batch_spec (memBytes : ℚ) (numNodes : ℕ) : ℤ :=
  ⌊memBytes / 2 / (numNodes : ℚ)⌋

/-- `num_batches = math.ceil(theta / num_rows_per_batch)` as a ceiling
division on naturals (exact for `rpb ≥ 1`). -/
def numBatches (theta rpb : ℕ) : ℕ := (theta + rpb - 1) / rpb

/-- The batch loop of `node_selection`: for each of the given number of
batches, process `min(num_rows_per_batch, theta - num_rows_processed)` rows.
Returns the list of batch sizes in execution order. -/
def batchLoopAux (theta rpb : ℕ) : ℕ → ℕ → List ℕ
  | 0, _ => []
  | b + 1, processed =>
    min rpb (theta - processed) ::
      batchLoopAux theta rpb b (processed + min rpb (theta - processed))

/-- The sizes of all batches run by `node_selection` for a given `theta` and
`num_rows_per_batch`. -/
def batchSizes (theta rpb : ℕ) : List ℕ := batchLoopAux theta rpb (numBatches theta rpb) 0

/-- The number of rows held by `R` when the greedy loop starts: `R` is
reassigned on every batch iteration, so after the loop it holds only the final
batch's rows. -/
def selectorRows (theta rpb : ℕ) : ℕ := (batchSizes theta rpb).getLastD 0

/-- The contiguous out-edge slice of node `v`:
`zip(graph[0], graph[2])[rows[v] : rows[v + 1]]` as (probability, neighbor)
pairs. Out-of-range offsets are totalized to the empty slice. -/
def outSlice (g : Graph) (v : ℕ) : List (ℚ × ℕ) :=
  ((g.data.zip g.cols).drop (g.rows.getD v 0)).take
    (g.rows.getD (v + 1) 0 - g.rows.getD v 0)

/-- The neighbors pushed while scanning an out-edge slice: for the `i`-th edge
the walk draws `rand (ridx + i)` and pushes the neighbor iff the draw is below
the edge probability (`random.random() < probabilities[i]`). -/
def firedNeighbors (es : List (ℚ × ℕ)) (rand : ℕ → ℚ) (ridx : ℕ) : List ℕ :=
  es.enum.filterMap (fun q => if rand (ridx + q.1) < q.2.1 then some q.2.2 else none)

/-- The `while stack:` loop of `random_reverse_reachable_set`, with explicit
fuel. The head of the list is the top of the Python stack; newly fired
neighbors are pushed in scan order, so they are prepended reversed. `none`
means the fuel ran out before the stack emptied. -/
def rrWalkAux (g : Graph) (rand : ℕ → ℚ) : ℕ → List ℕ → Finset ℕ → ℕ → Option (Finset ℕ)
  | _, [], visited, _ => some visited
  | 0, _ :: _, _, _ => none
  | fuel + 1, curr :: stack, visited, ridx =>
    if curr ∈ visited then rrWalkAux g rand fuel stack visited ridx
    else
      rrWalkAux g rand fuel
        ((firedNeighbors (outSlice g curr) rand ridx).reverse ++ stack)
        (insert curr visited)
        (ridx + (outSlice g curr).length)

/-- `random_reverse_reachable_set(graph)` for a given start node and random
stream: a stack-based probabilistic backward walk returning the visited set. -/
def random_reverse_reachable_set (g : Graph) (rand : ℕ → ℚ) (start fuel : ℕ) :
    Option (Finset ℕ) :=
  rrWalkAux g rand fuel [start] ∅ 0

/-- A fuel bound sufficient for the walk to drain its stack: one pop for the
start node plus one pop per edge-slice entry of every node. -/
def walkFuel (g : Graph) : ℕ :=
  1 + ∑ v ∈ Finset.range (nodeCount g), (outSlice g v).length

/-- Termination potential of the walk: pending pops on the stack plus the
slice lengths of all nodes that can still be expanded. -/
def stackPotential (g : Graph) (stack : List ℕ) (visited : Finset ℕ) : ℕ :=
  stack.length + ∑ v ∈ Finset.range (nodeCount g) \ visited, (outSlice g v).length

noncomputable section

/-- `L_CONSTANT = 1`. -/
def L_CONSTANT : ℝ := 1

/-- `EPSILON_CONSTANT = 0.2`. -/
def EPSILON_CONSTANT : ℝ := 1 / 5

/-- `calculate_lambda(n, k, l, e) =
(8.0 + 2*e) * n * (l*log(n) + log(comb(n, k)) + log(2)) * e**-2`. -/
def calculate_lambda (n k : ℕ) (l e : ℝ) : ℝ :=
  (8 + 2 * e) * n * (l * Real.log n + Real.log (n.choose k) + Real.log 2) * e ^ (-2 : ℤ)

/-- The per-sample influence ratio `k_r = 1 - (1 - w_r / m)**k` computed by
`kpt_estimation` from one RR set. -/
def kr (g : Graph) (k : ℕ) (R : Finset ℕ) : ℝ :=
  1 - (1 - (width g R : ℝ) / (edgeCount g : ℝ)) ^ k

/-- `ci = 6 * L_CONSTANT * math.log(n) + 6 * math.log(math.log(n, 2)) * 2**i`. -/
def kptCi (n i : ℕ) : ℝ :=
  6 * L_CONSTANT * Real.log n + 6 * Real.log (Real.logb 2 n) * 2 ^ i

/-- The number of samples drawn in round `i`: `range(int(ci))` iterates
`⌊ci⌋` times (and zero times when `ci` is negative). -/
def kptSampleCount (n i : ℕ) : ℕ := (⌊kptCi n i⌋).toNat

/-- `cum_sum` accumulated in round `i`: the sum of `k_r` over the `int(ci)`
RR sets drawn from the oracle in that round. -/
def kptRoundSum (g : Graph) (k : ℕ) (sample : ℕ → ℕ → Finset ℕ) (i : ℕ) : ℝ :=
  ∑ j ∈ Finset.range (kptSampleCount (nodeCount g) i), kr g k (sample i j)

/-- `int(math.log(n, 2))`, the exclusive upper bound of the trial-round range
`range(1, int(math.log(n, 2)))` (truncation = floor for `n ≥ 1`). -/
def kptNumRounds (n : ℕ) : ℕ := (⌊Real.logb 2 n⌋).toNat

/-- The trial-round loop of `kpt_estimation`: on the first round whose
accumulated ratio beats `1 / 2**i`, return `n * cum_sum / (2 * ci)`; if no
round fires, return the fallback `1.0`. -/
def kptLoop (g : Graph) (k : ℕ) (sample : ℕ → ℕ → Finset ℕ) : List ℕ → ℝ
  | [] => 1
  | i :: rest =>
    if 1 / 2 ^ i < kptRoundSum g k sample i / kptCi (nodeCount g) i then
      (nodeCount g) * kptRoundSum g k sample i / (2 * kptCi (nodeCount g) i)
    else kptLoop g k sample rest

/-- `kpt_estimation(graph, k)` with the random RR sets supplied by an
explicit oracle: rounds `i = 1, …, int(math.log(n, 2)) - 1`. -/
def kpt_estimation (g : Graph) (k : ℕ) (sample : ℕ → ℕ → Finset ℕ) : ℝ :=
  kptLoop g k sample (List.range' 1 (kptNumRounds (nodeCount g) - 1))

/-- `ceil(log2(n))`, the round bound asserted by the spec. -/
def kptNumRoundsCeil (n : ℕ) : ℕ := (⌈Real.logb 2 n⌉).toNat

/-- Modelled from the spec: the KPT estimator as the claim states it, with
trial rounds `i = 1, …, ceil(log2(n)) - 1`; the loop body is the one the code
implements. Compared against `kpt_estimation` (the code, which stops at
`int(log2(n)) - 1`). -/
def kpt_estimation_ceil (g : Graph) (k : ℕ) (sample : ℕ → ℕ → Finset ℕ) : ℝ :=
  kptLoop g k sample (List.range' 1 (kptNumRoundsCeil (nodeCount g) - 1))

/-- Specification-shaped form of the estimator's control flow: the estimate of
the FIRST round of `range(1, int(log2(n)))` whose stability test fires, and
the fallback `1.0` if none does. -/
def kptFirstSpec (g : Graph) (k : ℕ) (sample : ℕ → ℕ → Finset ℕ) : ℝ :=
  match (List.range' 1 (kptNumRounds (nodeCount g) - 1)).find?
      (fun i => decide (1 / 2 ^ i < kptRoundSum g k sample i / kptCi (nodeCount g) i)) with
  | some i => (nodeCount g) * kptRoundSum g k sample i / (2 * kptCi (nodeCount g) i)
  | none => 1

/-- The `theta = lambda_var / kpt` step of `find_k_seeds`, with the division
performed unguarded exactly as in the code; a Python `ZeroDivisionError`
(raised only when `kpt == 0`) is embedded as `none`. -/
def theta_step (n k : ℕ) (kpt : ℝ) : Option ℝ :=
  if kpt = 0 then none
  else some (calculate_lambda n k L_CONSTANT EPSILON_CONSTANT / kpt)

/-- The value of `theta` computed by `find_k_seeds(graph, k)`. -/
def find_k_seeds_theta (g : Graph) (k : ℕ) (sample : ℕ → ℕ → Finset ℕ) : ℝ :=
  calculate_lambda (nodeCount g) k L_CONSTANT EPSILON_CONSTANT / kpt_estimation g k sample

end

/-! ## Supporting lemmas -/

/-- Invariant of the `find_most_common_node` scan: the running `maximum`
dominates every count, and `most_common_node` attains it. -/
def FmcInv (s : FmcState) : Prop :=
  (∀ v, s.counts v ≤ s.maximum) ∧ s.counts s.mostCommon = s.maximum

theorem fmcStep_counts (setId node : ℕ) (s : FmcState) (v : ℕ) :
    (fmcStep setId s node).counts v = if v = node then s.counts v + 1 else s.counts v := by
  unfold fmcStep
  split <;> dsimp only <;> split <;> simp_all

theorem fmcStep_maximum (setId node : ℕ) (s : FmcState) :
    (fmcStep setId s node).maximum = max s.maximum (s.counts node + 1) := by
  unfold fmcStep
  split <;> dsimp only <;> omega

theorem fmcStep_mostCommon (setId node : ℕ) (s : FmcState) :
    (fmcStep setId s node).mostCommon =
      if s.maximum < s.counts node + 1 then node else s.mostCommon := by
  unfold fmcStep
  split <;> simp_all

theorem fmcStep_inv (setId node : ℕ) {s : FmcState} (h : FmcInv s) :
    FmcInv (fmcStep setId s node) := by
  obtain ⟨h1, h2⟩ := h
  by_cases hlt : s.maximum < s.counts node + 1
  · constructor
    · intro v
      rw [fmcStep_counts, fmcStep_maximum]
      have := h1 v
      split <;> omega
    · rw [fmcStep_mostCommon, if_pos hlt, fmcStep_counts, fmcStep_maximum, if_pos rfl]
      omega
  · have hne : s.mostCommon ≠ node := fun he => by rw [he] at h2; omega
    constructor
    · intro v
      rw [fmcStep_counts, fmcStep_maximum]
      have := h1 v
      split
      · next hv =>
          subst hv
          omega
      · omega
    · rw [fmcStep_mostCommon, if_neg hlt, fmcStep_counts, fmcStep_maximum, if_neg hne]
      omega

theorem fmcFold_inv (setId : ℕ) (nodes : List ℕ) {s : FmcState} (h : FmcInv s) :
    FmcInv (nodes.foldl (fmcStep setId) s) := by
  induction nodes generalizing s with
  | nil => exact h
  | cons a t ih => exact ih (fmcStep_inv setId a h)

theorem fmcFoldl_inv (R : List (ℕ × List ℕ)) {s : FmcState} (h : FmcInv s) :
    FmcInv (R.foldl fmcProcess s) := by
  induction R generalizing s with
  | nil => exact h
  | cons p t ih => exact ih (fmcFold_inv p.1 p.2 h)

theorem fmcInit_inv : FmcInv fmcInit := ⟨fun _ => le_rfl, rfl⟩

/-- The chosen node's final count dominates every node's final count. -/
theorem fmc_maximizer (R : List (ℕ × List ℕ)) (v : ℕ) :
    fmcCounts R v ≤ fmcCounts R (find_most_common_node R).1 := by
  have h := fmcFoldl_inv R fmcInit_inv
  unfold fmcCounts find_most_common_node
  exact le_trans (h.1 v) (le_of_eq h.2.symm)

theorem fmcFold_counts (setId : ℕ) (nodes : List ℕ) (s : FmcState) (v : ℕ) :
    ((nodes.foldl (fmcStep setId) s).counts v) = s.counts v + nodes.count v := by
  induction nodes generalizing s with
  | nil => simp
  | cons a t ih =>
    rw [List.foldl_cons, ih, fmcStep_counts]
    rcases eq_or_ne v a with h | h
    · subst h
      rw [if_pos rfl, List.count_cons_self]
      omega
    · rw [if_neg h, List.count_cons_of_ne h]

theorem fmcFoldl_counts (R : List (ℕ × List ℕ)) (s : FmcState) (v : ℕ) :
    (R.foldl fmcProcess s).counts v = s.counts v + (R.map (fun p => p.2.count v)).sum := by
  induction R generalizing s with
  | nil => simp
  | cons p t ih =>
    rw [List.foldl_cons, ih]
    unfold fmcProcess
    rw [fmcFold_counts]
    simp [add_assoc]

theorem count_sum_eq_countSets (R : List (ℕ × List ℕ)) (hnd : ∀ p ∈ R, p.2.Nodup) (v : ℕ) :
    (R.map (fun p => p.2.count v)).sum = countSets R v := by
  induction R with
  | nil => rfl
  | cons p t ih =>
    have hp := hnd p (List.mem_cons_self p t)
    have ht : ∀ q ∈ t, q.2.Nodup := fun q hq => hnd q (List.mem_cons_of_mem p hq)
    rw [List.map_cons, List.sum_cons, ih ht]
    unfold countSets
    rw [List.filter_cons]
    by_cases hv : v ∈ p.2
    · rw [List.count_eq_one_of_mem hp hv]
      simp [hv, Nat.add_comm]
    · rw [List.count_eq_zero_of_not_mem hv]
      simp [hv]

/-- With duplicate-free RR sets (Python sets), the count table of
`find_most_common_node` counts exactly the samples containing each node. -/
theorem fmcCounts_eq_countSets (R : List (ℕ × List ℕ)) (hnd : ∀ p ∈ R, p.2.Nodup) (v : ℕ) :
    fmcCounts R v = countSets R v := by
  unfold fmcCounts
  rw [fmcFoldl_counts, count_sum_eq_countSets R hnd v]
  simp [fmcInit]

/-- The batch loop generates exactly `theta - processed` rows when granted
enough batches. -/
theorem batchLoopAux_sum (theta rpb : ℕ) :
    ∀ b processed, processed ≤ theta → theta ≤ processed + b * rpb →
      (batchLoopAux theta rpb b processed).sum = theta - processed := by
  intro b
  induction b with
  | zero =>
    intro processed h1 h2
    simp only [batchLoopAux, List.sum_nil]
    omega
  | succ n ih =>
    intro processed h1 h2
    rw [Nat.succ_mul] at h2
    have hmr : min rpb (theta - processed) ≤ theta - processed := Nat.min_le_right _ _
    have hml : min rpb (theta - processed) ≤ rpb := Nat.min_le_left _ _
    have hch := min_choice rpb (theta - processed)
    rw [batchLoopAux, List.sum_cons,
      ih (processed + min rpb (theta - processed)) (by omega) (by rcases hch with h | h <;> omega)]
    omega

/-- The batch loop of `node_selection` generates exactly `theta` rows in
total across all batches (for any positive per-batch row count). -/
theorem batchSizes_sum (theta rpb : ℕ) (hr : 1 ≤ rpb) : (batchSizes theta rpb).sum = theta := by
  have hdm := Nat.div_add_mod (theta + rpb - 1) rpb
  have hlt : (theta + rpb - 1) % rpb < rpb := Nat.mod_lt _ (by omega)
  have hbound : theta ≤ 0 + numBatches theta rpb * rpb := by
    unfold numBatches
    rw [Nat.mul_comm]
    omega
  have := batchLoopAux_sum theta rpb (numBatches theta rpb) 0 (Nat.zero_le _) hbound
  simpa [batchSizes] using this

theorem firedNeighbors_length_le (es : List (ℚ × ℕ)) (rand : ℕ → ℚ) (ridx : ℕ) :
    (firedNeighbors es rand ridx).length ≤ es.length :=
  le_trans (List.length_filterMap_le _ _) (le_of_eq (List.enum_length))

theorem outSlice_eq_nil (g : Graph) {c : ℕ} (hc : nodeCount g ≤ c) : outSlice g c = [] := by
  unfold outSlice
  have h : g.rows.getD (c + 1) 0 = 0 :=
    List.getD_eq_default _ _ (by unfold nodeCount at hc; omega)
  rw [h]
  simp [Nat.zero_sub]

/-- The walk drains its stack whenever the fuel covers the termination
potential, because each iteration strictly decreases the potential. -/
theorem rrWalkAux_total (g : Graph) (rand : ℕ → ℚ) :
    ∀ fuel stack visited ridx, stackPotential g stack visited ≤ fuel →
      ∃ V, rrWalkAux g rand fuel stack visited ridx = some V := by
  intro fuel
  induction fuel with
  | zero =>
    intro stack visited ridx h
    match stack with
    | [] => exact ⟨visited, rfl⟩
    | c :: s =>
      exfalso
      simp only [stackPotential, List.length_cons] at h
      omega
  | succ f ih =>
    intro stack visited ridx h
    match stack with
    | [] => exact ⟨visited, rfl⟩
    | c :: s =>
      simp only [rrWalkAux]
      by_cases hmem : c ∈ visited
      · rw [if_pos hmem]
        apply ih
        simp only [stackPotential, List.length_cons] at h ⊢
        omega
      · rw [if_neg hmem]
        apply ih
        simp only [stackPotential, List.length_cons] at h ⊢
        rw [List.length_append, List.length_reverse]
        have hfl := firedNeighbors_length_le (outSlice g c) rand ridx
        by_cases hcn : c < nodeCount g
        · have hmem' : c ∈ Finset.range (nodeCount g) \ visited := by
            simp [Finset.mem_sdiff, Finset.mem_range, hcn, hmem]
          have hsd : Finset.range (nodeCount g) \ insert c visited
              = (Finset.range (nodeCount g) \ visited).erase c := by
            ext x
            simp only [Finset.mem_sdiff, Finset.mem_erase, Finset.mem_insert]
            tauto
          rw [hsd]
          have hsum : ∑ v ∈ (Finset.range (nodeCount g) \ visited).erase c,
                (outSlice g v).length + (outSlice g c).length
              = ∑ v ∈ Finset.range (nodeCount g) \ visited, (outSlice g v).length :=
            Finset.sum_erase_add (Finset.range (nodeCount g) \ visited)
              (fun v => (outSlice g v).length) hmem'
          omega
        · push_neg at hcn
          have hnil : outSlice g c = [] := outSlice_eq_nil g hcn
          have hsd : Finset.range (nodeCount g) \ insert c visited
              = Finset.range (nodeCount g) \ visited := by
            ext x
            simp only [Finset.mem_sdiff, Finset.mem_range, Finset.mem_insert]
            constructor
            · rintro ⟨hx1, hx2⟩
              exact ⟨hx1, fun hx => hx2 (Or.inr hx)⟩
            · rintro ⟨hx1, hx2⟩
              refine ⟨hx1, ?_⟩
              rintro (rfl | hx)
              · omega
              · exact hx2 hx
          rw [hsd]
          simp only [hnil, firedNeighbors, List.enum_nil, List.filterMap_nil,
            List.length_nil] at hfl ⊢
          omega

/-- Adjacent row offsets are monotone in a valid CSR graph. -/
theorem rows_step_le (g : Graph) (hg : ValidCSR g) {v : ℕ} (hv : v < nodeCount g) :
    g.rows.getD v 0 ≤ g.rows.getD (v + 1) 0 := by
  obtain ⟨hlen, hch, -⟩ := hg
  have hchain := (chainLe_iff g.rows).mp hch
  rw [List.chain'_iff_get] at hchain
  have hvlen : v < g.rows.length - 1 := by unfold nodeCount at hv; omega
  have h1 : v < g.rows.length := by omega
  have h2 : v + 1 < g.rows.length := by omega
  rw [List.getD_eq_getElem g.rows 0 h1, List.getD_eq_getElem g.rows 0 h2]
  have := hchain v hvlen
  rwa [List.get_eq_getElem, List.get_eq_getElem] at this

/-- A valid CSR graph with at least one edge has at least one node. -/
theorem nodeCount_pos (g : Graph) (hg : ValidCSR g) (hm : 1 ≤ edgeCount g) :
    1 ≤ nodeCount g := by
  obtain ⟨hlen, -, h0, hN, -⟩ := hg
  by_contra h
  push_neg at h
  rw [Nat.lt_one_iff] at h
  rw [h, h0] at hN
  omega

/-- The width of any in-range node set is nonnegative in a valid CSR graph. -/
theorem width_nonneg (g : Graph) (hg : ValidCSR g) (R : Finset ℕ)
    (hR : R ⊆ Finset.range (nodeCount g)) : 0 ≤ width g R := by
  apply Finset.sum_nonneg
  intro v hv
  have hvn : v < nodeCount g := Finset.mem_range.mp (hR hv)
  have := rows_step_le g hg hvn
  omega

/-- The width of any in-range node set is at most the edge count in a valid
CSR graph (the adjacent-offset increments telescope to `m`). -/
theorem width_le_edgeCount (g : Graph) (hg : ValidCSR g) (R : Finset ℕ)
    (hR : R ⊆ Finset.range (nodeCount g)) : width g R ≤ edgeCount g := by
  have hsub : width g R ≤ width g (Finset.range (nodeCount g)) := by
    apply Finset.sum_le_sum_of_subset_of_nonneg hR
    intro v hv _
    have hvn : v < nodeCount g := Finset.mem_range.mp hv
    have := rows_step_le g hg hvn
    omega
  have htel : width g (Finset.range (nodeCount g)) = edgeCount g := by
    unfold width
    rw [Finset.sum_range_sub (fun v => (g.rows.getD v 0 : ℤ))]
    obtain ⟨-, -, h0, hN, -⟩ := hg
    rw [h0, hN]
    omega
  omega

/-- Each per-sample ratio `k_r` lies in `[0, 1]` for a valid graph with at
least one edge and an in-range RR set. -/
theorem kr_mem_unit (g : Graph) (k : ℕ) (R : Finset ℕ) (hg : ValidCSR g)
    (hm : 1 ≤ edgeCount g) (hR : R ⊆ Finset.range (nodeCount g)) :
    0 ≤ kr g k R ∧ kr g k R ≤ 1 := by
  have hw0 := width_nonneg g hg R hR
  have hwm := width_le_edgeCount g hg R hR
  have hmpos : (0 : ℝ) < (edgeCount g : ℝ) := by exact_mod_cast hm
  have hq0 : (0 : ℝ) ≤ (width g R : ℝ) / (edgeCount g : ℝ) := by
    apply div_nonneg _ hmpos.le
    exact_mod_cast hw0
  have hq1 : (width g R : ℝ) / (edgeCount g : ℝ) ≤ 1 := by
    rw [div_le_one hmpos]
    exact_mod_cast hwm
  have hb0 : (0 : ℝ) ≤ 1 - (width g R : ℝ) / (edgeCount g : ℝ) := by linarith
  have hb1 : 1 - (width g R : ℝ) / (edgeCount g : ℝ) ≤ 1 := by linarith
  have hp0 : (0 : ℝ) ≤ (1 - (width g R : ℝ) / (edgeCount g : ℝ)) ^ k := pow_nonneg hb0 k
  have hp1 : (1 - (width g R : ℝ) / (edgeCount g : ℝ)) ^ k ≤ 1 := pow_le_one₀ hb0 hb1
  unfold kr
  constructor <;> linarith

/-- Each round's accumulated `cum_sum` is nonnegative and at most the number
of samples drawn in the round. -/
theorem kptRoundSum_bounds (g : Graph) (k : ℕ) (sample : ℕ → ℕ → Finset ℕ) (i : ℕ)
    (hg : ValidCSR g) (hm : 1 ≤ edgeCount g)
    (hs : ∀ i j, sample i j ⊆ Finset.range (nodeCount g)) :
    0 ≤ kptRoundSum g k sample i ∧
      kptRoundSum g k sample i ≤ (kptSampleCount (nodeCount g) i : ℝ) := by
  constructor
  · apply Finset.sum_nonneg
    intro j _
    exact (kr_mem_unit g k (sample i j) hg hm (hs i j)).1
  · have h := Finset.sum_le_card_nsmul (Finset.range (kptSampleCount (nodeCount g) i))
      (fun j => kr g k (sample i j)) 1
      (fun j _ => (kr_mem_unit g k (sample i j) hg hm (hs i j)).2)
    simpa using h

/-- For positive `ci`, the number of samples drawn (`int(ci)`) is at most
`ci`. -/
theorem kptSampleCount_le (n i : ℕ) (h : 0 < kptCi n i) :
    ((kptSampleCount n i : ℕ) : ℝ) ≤ kptCi n i := by
  unfold kptSampleCount
  have h0 : (0 : ℤ) ≤ ⌊kptCi n i⌋ := Int.floor_nonneg.mpr h.le
  have h1 : ((⌊kptCi n i⌋.toNat : ℕ) : ℝ) = ((⌊kptCi n i⌋ : ℤ) : ℝ) := by
    exact_mod_cast Int.toNat_of_nonneg h0
  rw [h1]
  exact Int.floor_le _

/-- For positive `ci`, the number of samples drawn exceeds `ci - 1`. -/
theorem kptSampleCount_gt (n i : ℕ) (h : 0 < kptCi n i) :
    kptCi n i - 1 < ((kptSampleCount n i : ℕ) : ℝ) := by
  unfold kptSampleCount
  have h0 : (0 : ℤ) ≤ ⌊kptCi n i⌋ := Int.floor_nonneg.mpr h.le
  have h1 : ((⌊kptCi n i⌋.toNat : ℕ) : ℝ) = ((⌊kptCi n i⌋ : ℤ) : ℝ) := by
    exact_mod_cast Int.toNat_of_nonneg h0
  rw [h1]
  exact Int.sub_one_lt_floor _

/-- When a round's stability test fires, that round's `ci` and `cum_sum` are
positive and `cum_sum ≤ ci`. -/
theorem kpt_exit_facts (g : Graph) (k : ℕ) (sample : ℕ → ℕ → Finset ℕ) (i : ℕ)
    (hg : ValidCSR g) (hm : 1 ≤ edgeCount g)
    (hs : ∀ i j, sample i j ⊆ Finset.range (nodeCount g))
    (ht : 1 / 2 ^ i < kptRoundSum g k sample i / kptCi (nodeCount g) i) :
    0 < kptCi (nodeCount g) i ∧ 0 < kptRoundSum g k sample i ∧
      kptRoundSum g k sample i ≤ kptCi (nodeCount g) i := by
  obtain ⟨hS0, hSN⟩ := kptRoundSum_bounds g k sample i hg hm hs
  have hpow : (0 : ℝ) < 1 / 2 ^ i := by positivity
  have hdiv : 0 < kptRoundSum g k sample i / kptCi (nodeCount g) i := lt_trans hpow ht
  have hcpos : 0 < kptCi (nodeCount g) i := by
    rcases div_pos_iff.mp hdiv with ⟨-, h⟩ | ⟨h, -⟩
    · exact h
    · linarith
  refine ⟨hcpos, ?_, le_trans hSN (kptSampleCount_le _ _ hcpos)⟩
  rcases div_pos_iff.mp hdiv with ⟨h, -⟩ | ⟨-, h⟩
  · exact h
  · linarith

/-- The trial-round loop always yields a value in `(0, n]` (either the
fallback `1`, or an early-exit value `n * cum_sum / (2 * ci)` bounded by the
test's own requirements). -/
theorem kptLoop_bounds (g : Graph) (k : ℕ) (sample : ℕ → ℕ → Finset ℕ)
    (hg : ValidCSR g) (hm : 1 ≤ edgeCount g)
    (hs : ∀ i j, sample i j ⊆ Finset.range (nodeCount g)) (hn : 1 ≤ nodeCount g)
    (L : List ℕ) :
    0 < kptLoop g k sample L ∧ kptLoop g k sample L ≤ (nodeCount g : ℝ) := by
  induction L with
  | nil =>
    constructor
    · norm_num [kptLoop]
    · rw [kptLoop]
      exact_mod_cast hn
  | cons i rest ih =>
    rw [kptLoop]
    by_cases ht : 1 / 2 ^ i < kptRoundSum g k sample i / kptCi (nodeCount g) i
    · rw [if_pos ht]
      obtain ⟨hc, hS, hSc⟩ := kpt_exit_facts g k sample i hg hm hs ht
      have hnpos : (0 : ℝ) < (nodeCount g : ℝ) := by exact_mod_cast hn
      constructor
      · exact div_pos (mul_pos hnpos hS) (by linarith)
      · rw [div_le_iff₀ (by linarith : (0 : ℝ) < 2 * kptCi (nodeCount g) i)]
        nlinarith
    · rw [if_neg ht]
      exact ih

/-! ## Claims -/

/-- C1: the batch loop of `node_selection` does generate exactly
`ceil(theta)` rows in total across all batches, but the sample collection the
greedy selector consumes does NOT contain all of them: `R` is reassigned on
every batch iteration, so with `theta = 3` and the per-batch row count of `1`
actually produced by the code's formula, the selector sees only the final
batch's single row; the rows of the earlier batches are silently dropped,
contradicting the claimed invariant. -/
theorem c1_rows_generated_but_dropped :
    (batchSizes 3 1).sum = 3 ∧ selectorRows 3 1 = 1 := by
  constructor
  · decide
  · decide

/-- C3: the claim (with the spec) says the scheduler computes
`floor(memory_budget_bytes / bytes_per_row)` — on 4 GiB of memory and
`10^10` nodes that floor is `0` — and must then fail with
`BatchSizeUnsatisfiable`. The code instead computes
`math.ceil(MEM_GIGABYTES / 2 / num_nodes * 1e-9)`, which on the same input is
`1`, and has no failure path at all: the unit-mangled operand is a tiny
positive rational for any positive memory size, so its ceiling is always 1. -/
theorem c3_ceil_of_mangled_units :
    num_rows_per_batch (2 ^ 32) (10 ^ 10) = 1 ∧
    rows_per_batch_spec (2 ^ 32) (10 ^ 10) = 0 := by
  constructor
  · unfold num_rows_per_batch MEM_GIGABYTES
    rw [Int.ceil_eq_iff]
    norm_num
  · unfold rows_per_batch_spec
    norm_num

/-- C4 (amended): in every greedy iteration the node appended by
`find_most_common_node` covers a maximum number of currently-uncovered RR
sets; when several nodes attain that maximum the winner is the first node to
reach the maximum in iteration order, not the one with the lowest id (see the
counterexample). -/
theorem c4_pick_covers_max_sets (R : List (ℕ × List ℕ))
    (hnd : ∀ p ∈ R, p.2.Nodup) (v : ℕ) :
    countSets R v ≤ countSets R (find_most_common_node R).1 := by
  rw [← fmcCounts_eq_countSets R hnd v, ← fmcCounts_eq_countSets R hnd]
  exact fmc_maximizer R v

/-- C4 counterexample: on the collection `{0: {3}, 1: {2}}` nodes `2` and `3`
both cover exactly one RR set (a tie at the maximum), yet
`find_most_common_node` picks node `3`, not the lowest-id node `2`: the
claimed lowest-node-id tie-break is false. -/
theorem c4_counterexample :
    (find_most_common_node [(0, [3]), (1, [2])]).1 = 3 ∧
    countSets [(0, [3]), (1, [2])] 2 = 1 ∧
    countSets [(0, [3]), (1, [2])] 3 = 1 := by
  refine ⟨by decide, by decide, by decide⟩

/-- Witness for `c4_pick_covers_max_sets` at a concrete collection. -/
theorem c4_witness :
    (∀ p ∈ [((0 : ℕ), [(1 : ℕ), 2]), (1, [2])], p.2.Nodup) ∧
    countSets [((0 : ℕ), [(1 : ℕ), 2]), (1, [2])] 1 ≤
      countSets [((0 : ℕ), [(1 : ℕ), 2]), (1, [2])]
        (find_most_common_node [((0 : ℕ), [(1 : ℕ), 2]), (1, [2])]).1 :=
  ⟨by decide, c4_pick_covers_max_sets _ (by decide) 1⟩

/-- C5 counterexample: with the single sample `{0: {5}}` and `k = 2`, every
sample is covered after the first pick, yet the greedy loop does not stop
early: it returns `[5, 0]` of length exactly `k = 2`, fabricating node `0`
(the default returned by `find_most_common_node` on an empty collection)
rather than returning a shorter-than-`k` list of genuine picks. -/
theorem c5_counterexample :
    node_selection_greedy [(0, [5])] 2 = [5, 0] := by decide

/-- C5 (amended): the greedy loop of `node_selection` always performs exactly
`k` picks and returns a seed list of length exactly `k`; once the samples are
exhausted the remaining picks all return the fabricated default node `0`.
No error is raised, but no early stop exists either. -/
theorem c5_always_k_picks (R : List (ℕ × List ℕ)) (k : ℕ) :
    (node_selection_greedy R k).length = k := by
  induction k generalizing R with
  | zero => rfl
  | succ n ih => simp [node_selection_greedy, ih]

/-- C8: for every graph with a valid CSR structure and every start node, the
stack-based walk of `random_reverse_reachable_set` terminates — the fuel
`walkFuel g` (one pop for the start plus one per edge-slice entry of every
node) always suffices for the stack to empty — and the walk returns the
visited set. -/
theorem c8_rr_walk_terminates (g : Graph) (rand : ℕ → ℚ) (start : ℕ)
    (_hg : ValidCSR g) (_hs : start < nodeCount g) :
    ∃ V, random_reverse_reachable_set g rand start (walkFuel g) = some V := by
  unfold random_reverse_reachable_set
  apply rrWalkAux_total
  unfold stackPotential walkFuel
  simp

/-- Witness for `c8_rr_walk_terminates` on a concrete two-node graph. -/
theorem c8_witness :
    ValidCSR ⟨[1], [0, 1, 1], [1]⟩ ∧ 0 < nodeCount ⟨[1], [0, 1, 1], [1]⟩ ∧
    ∃ V, random_reverse_reachable_set ⟨[1], [0, 1, 1], [1]⟩ (fun _ => 0) 0
        (walkFuel ⟨[1], [0, 1, 1], [1]⟩) = some V :=
  ⟨by decide, by decide, c8_rr_walk_terminates _ (fun _ => 0) 0 (by decide) (by decide)⟩

/-- C6: for every valid graph (non-decreasing row offsets, edge
probabilities in `[0, 1]`, `m ≥ 1`) and every `k ≥ 1`, the KPT estimator's
value lies in `[0, n]`; and for a graph with a single node it returns the
fallback `1.0` (the trial-round range `range(1, int(log2(1)))` is empty). -/
theorem c6_kpt_bounds (g : Graph) (k : ℕ) (sample : ℕ → ℕ → Finset ℕ)
    (hg : ValidCSR g) (hm : 1 ≤ edgeCount g) (_hk : 1 ≤ k)
    (hs : ∀ i j, sample i j ⊆ Finset.range (nodeCount g)) :
    (0 ≤ kpt_estimation g k sample ∧ kpt_estimation g k sample ≤ (nodeCount g : ℝ)) ∧
      (nodeCount g = 1 → kpt_estimation g k sample = 1) := by
  have hn := nodeCount_pos g hg hm
  have h := kptLoop_bounds g k sample hg hm hs hn
    (List.range' 1 (kptNumRounds (nodeCount g) - 1))
  refine ⟨⟨le_of_lt h.1, h.2⟩, ?_⟩
  intro h1
  unfold kpt_estimation
  rw [h1]
  have hr : kptNumRounds 1 = 0 := by
    unfold kptNumRounds
    norm_num
  rw [hr, show List.range' 1 (0 - 1) = [] from rfl, kptLoop]

/-- One-node graph with a single certain self-loop, used in witnesses. -/
def g1 : Graph := ⟨[1], [0, 1], [0]⟩

/-- The always-empty RR-set oracle, used in witnesses. -/
def emptySample : ℕ → ℕ → Finset ℕ := fun _ _ => ∅

/-- Witness for `c6_kpt_bounds` on the one-node graph `g1`. -/
theorem c6_witness :
    ValidCSR g1 ∧ 1 ≤ edgeCount g1 ∧ 1 ≤ 1 ∧
      (∀ i j, emptySample i j ⊆ Finset.range (nodeCount g1)) ∧
      ((0 ≤ kpt_estimation g1 1 emptySample ∧
          kpt_estimation g1 1 emptySample ≤ (nodeCount g1 : ℝ)) ∧
        (nodeCount g1 = 1 → kpt_estimation g1 1 emptySample = 1)) :=
  ⟨by decide, by decide, le_rfl, fun _ _ => Finset.empty_subset _,
    c6_kpt_bounds g1 1 emptySample (by decide) (by decide) le_rfl
      (fun _ _ => Finset.empty_subset _)⟩

/-- C10: for every valid graph with at least one node and one edge and every
`k ≥ 1`, `kpt_estimation` returns a strictly positive value (each early-exit
value is positive because the stability test requires
`cum_sum / ci > 1/2^i > 0`, and the fallback is `1.0`), hence nonzero — so
the division `theta = lambda / KPT` in `find_k_seeds` is never a division by
zero. -/
theorem c10_kpt_pos (g : Graph) (k : ℕ) (sample : ℕ → ℕ → Finset ℕ)
    (hg : ValidCSR g) (hn : 1 ≤ nodeCount g) (hm : 1 ≤ edgeCount g) (_hk : 1 ≤ k)
    (hs : ∀ i j, sample i j ⊆ Finset.range (nodeCount g)) :
    0 < kpt_estimation g k sample ∧ kpt_estimation g k sample ≠ 0 := by
  have h := (kptLoop_bounds g k sample hg hm hs hn
    (List.range' 1 (kptNumRounds (nodeCount g) - 1))).1
  exact ⟨h, ne_of_gt h⟩

/-- Witness for `c10_kpt_pos` on the one-node graph `g1`. -/
theorem c10_witness :
    ValidCSR g1 ∧ 1 ≤ nodeCount g1 ∧ 1 ≤ edgeCount g1 ∧ 1 ≤ 1 ∧
      (∀ i j, emptySample i j ⊆ Finset.range (nodeCount g1)) ∧
      (0 < kpt_estimation g1 1 emptySample ∧ kpt_estimation g1 1 emptySample ≠ 0) :=
  ⟨by decide, by decide, by decide, le_rfl, fun _ _ => Finset.empty_subset _,
    c10_kpt_pos g1 1 emptySample (by decide) (by decide) (by decide) le_rfl
      (fun _ _ => Finset.empty_subset _)⟩

/-- `int(math.log(n, 2))` agrees with the natural-number binary logarithm. -/
theorem kptNumRounds_natLog (n : ℕ) : kptNumRounds n = Nat.log 2 n := by
  unfold kptNumRounds
  rw [show (2 : ℝ) = ((2 : ℕ) : ℝ) by norm_num,
    Real.floor_logb_natCast (Nat.cast_nonneg n), Int.log_natCast, Int.toNat_natCast]

/-- `ceil(log2(n))` agrees with the natural-number ceiling binary logarithm. -/
theorem kptNumRoundsCeil_natClog (n : ℕ) : kptNumRoundsCeil n = Nat.clog 2 n := by
  unfold kptNumRoundsCeil
  rw [show (2 : ℝ) = ((2 : ℕ) : ℝ) by norm_num,
    Real.ceil_logb_natCast (Nat.cast_nonneg n), Int.clog_natCast, Int.toNat_natCast]

/-- Five-node graph with a single certain edge, the concrete input of the C2
counterexample. -/
def g5 : Graph := ⟨[1], [0, 1, 1, 1, 1, 1], [1]⟩

/-- Oracle for the C2 counterexample: round 1 draws empty RR sets, later
rounds draw the full node set. -/
def sample5 : ℕ → ℕ → Finset ℕ := fun i _ => if i = 1 then ∅ else Finset.range 5

theorem kr_g5_empty : kr g5 1 (∅ : Finset ℕ) = 0 := by
  unfold kr width
  norm_num

theorem kr_g5_full : kr g5 1 (Finset.range 5) = 1 := by
  unfold kr
  rw [show width g5 (Finset.range 5) = 1 by decide]
  norm_num [edgeCount, g5]

theorem kptRoundSum_g5_one : kptRoundSum g5 1 sample5 1 = 0 := by
  unfold kptRoundSum
  apply Finset.sum_eq_zero
  intro j _
  rw [show sample5 1 j = ∅ from rfl]
  exact kr_g5_empty

theorem kptRoundSum_g5_two : kptRoundSum g5 1 sample5 2 = (kptSampleCount 5 2 : ℝ) := by
  unfold kptRoundSum
  have h : ∀ j ∈ Finset.range (kptSampleCount (nodeCount g5) 2),
      kr g5 1 (sample5 2 j) = 1 := by
    intro j _
    rw [show sample5 2 j = Finset.range 5 from rfl]
    exact kr_g5_full
  rw [Finset.sum_congr rfl h, Finset.sum_const, nsmul_eq_mul, mul_one, Finset.card_range]
  rfl

theorem one_lt_log_five : 1 < Real.log 5 := by
  rw [Real.lt_log_iff_exp_lt (by norm_num : (0 : ℝ) < 5)]
  calc Real.exp 1 < 2.7182818286 := Real.exp_one_lt_d9
    _ < 5 := by norm_num

theorem one_lt_logb_two_five : 1 < Real.logb 2 5 := by
  rw [Real.logb, lt_div_iff₀ (Real.log_pos (by norm_num)), one_mul]
  exact Real.log_lt_log (by norm_num) (by norm_num)

theorem six_lt_kptCi_five_two : 6 < kptCi 5 2 := by
  unfold kptCi L_CONSTANT
  have h1 := one_lt_log_five
  have h2 : 0 < Real.log (Real.logb 2 5) := Real.log_pos one_lt_logb_two_five
  push_cast
  nlinarith [h1, h2]

/-- C2 counterexample: on a five-node graph the code runs trial rounds only
up to `int(log2(5)) - 1 = 1` — with an oracle whose round-1 sets are empty it
falls through to the fallback `1.0` — whereas the claimed round bound
`ceil(log2(5)) - 1 = 2` would also run round 2, whose full-node-set samples
fire the stability test and return a value strictly greater than 1. The two
round bounds therefore produce different results: the claimed bound is wrong
about the code. -/
theorem c2_counterexample :
    kpt_estimation g5 1 sample5 = 1 ∧ kpt_estimation_ceil g5 1 sample5 ≠ 1 := by
  have hn5 : nodeCount g5 = 5 := rfl
  have hround : kptNumRounds 5 = 2 := by
    rw [kptNumRounds_natLog]
    exact Nat.log_eq_of_pow_le_of_lt_pow (by norm_num) (by norm_num)
  have hroundc : kptNumRoundsCeil 5 = 3 := by
    rw [kptNumRoundsCeil_natClog]
    have hle : Nat.clog 2 5 ≤ 3 := (Nat.le_pow_iff_clog_le (by norm_num)).mp (by norm_num)
    have hgt : ¬ Nat.clog 2 5 ≤ 2 := fun h =>
      absurd ((Nat.le_pow_iff_clog_le (by norm_num)).mpr h) (by norm_num)
    omega
  have htest1 : ¬ (1 / 2 ^ (1 : ℕ) < kptRoundSum g5 1 sample5 1 / kptCi 5 1) := by
    rw [kptRoundSum_g5_one, zero_div]
    norm_num
  have hc := six_lt_kptCi_five_two
  have hcpos : (0 : ℝ) < kptCi 5 2 := by linarith
  have hNgt := kptSampleCount_gt 5 2 hcpos
  have hNle := kptSampleCount_le 5 2 hcpos
  have htest2 : 1 / 2 ^ (2 : ℕ) < kptRoundSum g5 1 sample5 2 / kptCi 5 2 := by
    rw [kptRoundSum_g5_two, div_lt_div_iff₀ (by norm_num) hcpos]
    nlinarith
  constructor
  · unfold kpt_estimation
    rw [hn5, hround, show List.range' 1 (2 - 1) = [1] from rfl]
    simp only [kptLoop, hn5]
    rw [if_neg htest1]
  · unfold kpt_estimation_ceil
    rw [hn5, hroundc, show List.range' 1 (3 - 1) = [1, 2] from rfl]
    simp only [kptLoop, hn5]
    rw [if_neg htest1, if_pos htest2, kptRoundSum_g5_two]
    have hgt1 : (1 : ℝ) < ((5 : ℕ) : ℝ) * (kptSampleCount 5 2 : ℝ) / (2 * kptCi 5 2) := by
      rw [lt_div_iff₀ (by linarith)]
      push_cast
      nlinarith
    exact ne_of_gt hgt1

/-- C2 (amended): `kpt_estimation` runs trial rounds `i = 1, …` up to
`int(log2(n)) - 1` (floor, not ceil), drawing `int(ci)` samples with
`ci = 6*L*ln(n) + 6*ln(log2(n))*2^i` in round `i`, and returns
`KPT = n * cum_sum / (2 * ci)` on the FIRST round whose accumulated ratio
satisfies `cum_sum / ci > 1 / 2^i` (early exit, not the best round); if no
round satisfies the test it returns `1.0`. Stated as: the estimator equals
the find-first-satisfying-round specification `kptFirstSpec`. -/
theorem c2_first_satisfying_round (g : Graph) (k : ℕ) (sample : ℕ → ℕ → Finset ℕ) :
    kpt_estimation g k sample = kptFirstSpec g k sample := by
  unfold kpt_estimation kptFirstSpec
  generalize List.range' 1 (kptNumRounds (nodeCount g) - 1) = L
  induction L with
  | nil => rw [kptLoop, List.find?_nil]
  | cons i rest ih =>
    rw [kptLoop]
    by_cases h : 1 / 2 ^ i < kptRoundSum g k sample i / kptCi (nodeCount g) i
    · rw [if_pos h, List.find?_cons_of_pos rest (by simpa using h)]
    · rw [if_neg h, List.find?_cons_of_neg rest (by simpa using h), ih]

/-- `calculate_lambda` is positive with the program's constants whenever
`1 ≤ k ≤ n`. -/
theorem calculate_lambda_pos (n k : ℕ) (hn : 1 ≤ n) (_hk1 : 1 ≤ k) (hkn : k ≤ n) :
    0 < calculate_lambda n k L_CONSTANT EPSILON_CONSTANT := by
  unfold calculate_lambda L_CONSTANT EPSILON_CONSTANT
  have h1 : (0 : ℝ) < Real.log 2 := Real.log_pos (by norm_num)
  have h2 : (0 : ℝ) ≤ Real.log n := Real.log_nonneg (by exact_mod_cast hn)
  have hc : 1 ≤ n.choose k := Nat.choose_pos hkn
  have h3 : (0 : ℝ) ≤ Real.log (n.choose k) := Real.log_nonneg (by exact_mod_cast hc)
  have h4 : (0 : ℝ) < ((1 : ℝ) / 5) ^ (-2 : ℤ) := by norm_num
  have h5 : (0 : ℝ) < (n : ℝ) := by exact_mod_cast Nat.lt_of_lt_of_le Nat.zero_lt_one hn
  exact mul_pos (mul_pos (mul_pos (by norm_num) h5) (by linarith)) h4

/-- C7 counterexample: a KPT value `≤ 0` (here `-1`) fed to the
`theta = lambda_var / kpt` computation of `find_k_seeds` does not make the
computation fail: the unguarded division proceeds and produces a value — no
`DegenerateInput` (or any other) error is reported to the caller. -/
theorem c7_counterexample :
    ((-1 : ℝ) ≤ 0) ∧ (theta_step 5 1 (-1)).isSome = true := by
  refine ⟨by norm_num, ?_⟩
  unfold theta_step
  rw [if_neg (by norm_num : (-1 : ℝ) ≠ 0)]
  rfl

/-- C7 (amended): `find_k_seeds` computes `theta = lambda_var / kpt` with no
guard: for `kpt < 0` (with `1 ≤ k ≤ n`) it silently produces a negative theta
and reports no error, and for `kpt = 0` it aborts with an unhandled Python
`ZeroDivisionError` (embedded as `none`), not a reported `DegenerateInput`
error — no such error type exists in the code. -/
theorem c7_unguarded_division (n k : ℕ) (kpt : ℝ) (hn : 1 ≤ n) (hk1 : 1 ≤ k)
    (hkn : k ≤ n) (hneg : kpt < 0) :
    theta_step n k kpt =
        some (calculate_lambda n k L_CONSTANT EPSILON_CONSTANT / kpt) ∧
      calculate_lambda n k L_CONSTANT EPSILON_CONSTANT / kpt < 0 ∧
      theta_step n k 0 = none := by
  refine ⟨?_, ?_, ?_⟩
  · unfold theta_step
    rw [if_neg (ne_of_lt hneg)]
  · exact div_neg_of_pos_of_neg (calculate_lambda_pos n k hn hk1 hkn) hneg
  · unfold theta_step
    rw [if_pos rfl]

/-- Witness for `c7_unguarded_division` at `n = k = 1`, `kpt = -1`. -/
theorem c7_witness :
    1 ≤ 1 ∧ ((-1 : ℝ) < 0) ∧
      (theta_step 1 1 (-1) =
          some (calculate_lambda 1 1 L_CONSTANT EPSILON_CONSTANT / (-1)) ∧
        calculate_lambda 1 1 L_CONSTANT EPSILON_CONSTANT / (-1) < 0 ∧
        theta_step 1 1 0 = none) :=
  ⟨le_rfl, by norm_num,
    c7_unguarded_division 1 1 (-1) le_rfl le_rfl le_rfl (by norm_num)⟩

/-- C9: with `n`, `k` and the accuracy/confidence parameters held fixed so
that `lambda = calculate_lambda n k l e` is a fixed positive value, the
computed `theta = lambda / KPT` strictly decreases as `KPT` increases:
for `0 < KPT1 < KPT2`, `theta(KPT2) < theta(KPT1)`. -/
theorem c9_theta_strictly_decreasing (n k : ℕ) (l e : ℝ)
    (hl : 0 < calculate_lambda n k l e) (x y : ℝ) (hx : 0 < x) (hxy : x < y) :
    calculate_lambda n k l e / y < calculate_lambda n k l e / x :=
  div_lt_div_of_pos_left hl hx hxy

/-- Witness for `c9_theta_strictly_decreasing` with the program's constants
at `n = k = 1` and KPT values `1 < 2`. -/
theorem c9_witness :
    0 < calculate_lambda 1 1 L_CONSTANT EPSILON_CONSTANT ∧ (0 : ℝ) < 1 ∧
      (1 : ℝ) < 2 ∧
      calculate_lambda 1 1 L_CONSTANT EPSILON_CONSTANT / 2 <
        calculate_lambda 1 1 L_CONSTANT EPSILON_CONSTANT / 1 :=
  ⟨calculate_lambda_pos 1 1 le_rfl le_rfl le_rfl, by norm_num, by norm_num,
    c9_theta_strictly_decreasing 1 1 L_CONSTANT EPSILON_CONSTANT
      (calculate_lambda_pos 1 1 le_rfl le_rfl le_rfl) 1 2 (by norm_num) (by norm_num)⟩

end Parallel
